import Mathlib

/-!
Verification of the PDF-to-audiobook conversion pipeline
(`pdf_to_audiobook.py`) against its specification.

Texts are modelled as `List Char`.  Python string primitives used by the
source (`str.strip`, `str.rfind`, `str.split('-')`, `int(...)`,
`re.sub(r'\n\s*\n+', '\n\n', s)`, `str.replace('\x0c','')`) are embedded
as executable Lean functions restricted to the ASCII whitespace class
(space, tab, newline, carriage return, vertical tab, form feed), which is
the class exercised by the program's inputs.

The while-loops of the source are embedded with an explicit fuel
parameter so that every definition is structurally recursive and
kernel-computable; the fuel chosen at each top-level entry point is
provably sufficient (see the fuel-invariance lemmas below), so the
functions agree with the loops everywhere the loops terminate.
-/

namespace PdfAudio

/-- ASCII whitespace, as treated by Python `str.strip()` and the regex
class `\s` on ASCII text. -/
def isPySpace (c : Char) : Bool :=
  c = ' ' || c = '\t' || c = '\n' || c = '\r' || c = '\x0b' || c = '\x0c'

/-- Python `s.strip()`: remove leading and trailing whitespace. -/
def pyStrip (l : List Char) : List Char :=
  ((l.dropWhile isPySpace).reverse.dropWhile isPySpace).reverse

/-- Python `s.rfind(c, a, a+k)` restricted to single-character needles:
the largest index `i` with `a ≤ i < a + k` and `l[i] = c`, if any.
(The source compares the Python result with `-1` absent / found;
`Option` plays that role here.) -/
def rfindIn (t : List Char) (c : Char) (a : Nat) : Nat → Option Nat
  | 0 => none
  | k+1 => if t[a+k]? = some c then some (a+k) else rfindIn t c a k

/-- One pass of `re.sub(r'\n\s*\n+', '\n\n', s)` (leftmost,
non-overlapping matches).  At a `'\n'`, the regex `\n\s*\n+` matches
exactly when the maximal whitespace run that follows contains another
`'\n'`; the (greedy, backtracking) match then extends through the last
`'\n'` of that run and is replaced by `"\n\n"`.  `fuel` bounds the
recursion; `fuel = l.length` is exact since each step consumes at least
one character. -/
def subBlankF : Nat → List Char → List Char
  | 0, l => l
  | _+1, [] => []
  | fuel+1, c :: rest =>
    if c = '\n' then
      match rfindIn (rest.takeWhile isPySpace) '\n' 0 (rest.takeWhile isPySpace).length with
      | some k => '\n' :: '\n' :: subBlankF fuel (rest.drop (k+1))
      | none => c :: subBlankF fuel rest
    else c :: subBlankF fuel rest

/-- `re.sub(r'\n\s*\n+', '\n\n', s)` from `clean_text`. -/
def subBlankLines (l : List Char) : List Char := subBlankF l.length l

/-- `clean_text` from the source: collapse blank-line runs, remove form
feeds (`s.replace('\x0c','')`), then strip. -/
def cleanText (l : List Char) : List Char :=
  pyStrip ((subBlankLines l).filter (fun c => c != '\x0c'))

/-- The end position chosen by one iteration of the chunking loop in
`convert_clicked`:
`end = min(start + chunk_size, len(text))`; if `end < len(text)`,
`next_space = text.rfind(' ', start, end)` and, when `next_space > start`,
`end = next_space`. -/
def nextEnd (t : List Char) (m s : Nat) : Nat :=
  if min (s + m) t.length < t.length then
    match rfindIn t ' ' s (min (s + m) t.length - s) with
    | some ns => if s < ns then ns else min (s + m) t.length
    | none => min (s + m) t.length
  else min (s + m) t.length

/-- The chunking `while start < len(text)` loop of `convert_clicked`,
with fuel.  Each iteration appends `text[start:end]` and sets
`start = end` where `end = nextEnd`. -/
def chunkLoopF (t : List Char) (m : Nat) : Nat → Nat → List (List Char)
  | _, 0 => []
  | s, fuel+1 =>
    if s < t.length then
      ((t.drop s).take (nextEnd t m s - s)) :: chunkLoopF t m (nextEnd t m s) fuel
    else []

/-- The chunking loop started at cursor `s`; fuel `t.length - s` is
sufficient because each iteration advances the cursor by at least one
position (for `m ≥ 1`). -/
def chunkLoop (t : List Char) (m s : Nat) : List (List Char) :=
  chunkLoopF t m s (t.length - s)

/-- The full chunking algorithm of `convert_clicked`:
`if len(text) <= chunk_size: chunks = [text] else: <loop>`.
This is `TextChunker.split` of the specification. -/
def split (t : List Char) (m : Nat) : List (List Char) :=
  if t.length ≤ m then [t] else chunkLoop t m 0

/-- The `(start, end)` index pairs of the chunks produced by the loop
(same recursion as `chunkLoopF`, recording positions instead of text). -/
def chunkBoundsF (t : List Char) (m : Nat) : Nat → Nat → List (Nat × Nat)
  | _, 0 => []
  | s, fuel+1 =>
    if s < t.length then
      (s, nextEnd t m s) :: chunkBoundsF t m (nextEnd t m s) fuel
    else []

/-- Chunk index pairs for the loop started at `s`. -/
def chunkBounds (t : List Char) (m s : Nat) : List (Nat × Nat) :=
  chunkBoundsF t m s (t.length - s)

/-- Chunk index pairs for the full algorithm (single-chunk branch
included). -/
def splitBounds (t : List Char) (m : Nat) : List (Nat × Nat) :=
  if t.length ≤ m then [(0, t.length)] else chunkBounds t m 0

/-- Value of a decimal digit character. -/
def digitVal (c : Char) : Option Nat :=
  if '0' ≤ c ∧ c ≤ '9' then some (c.toNat - '0'.toNat) else none

/-- Digit part of Python `int(...)`: a non-empty digit string in which a
single underscore may separate two digits (`int("1_2") = 12`, while
`"_1"`, `"1_"`, `"1__2"` all fail). -/
def pyDigits : List Char → Option (List Nat)
  | [] => none
  | [c] =>
    match digitVal c with
    | none => none
    | some d => some [d]
  | c :: '_' :: rest =>
    match digitVal c with
    | none => none
    | some d => (pyDigits rest).map (fun ds => d :: ds)
  | c :: rest =>
    match digitVal c with
    | none => none
    | some d => (pyDigits rest).map (fun ds => d :: ds)

/-- Decimal value of a digit list. -/
def digitsToNat (ds : List Nat) : Nat := ds.foldl (fun a d => a * 10 + d) 0

/-- Python `int(s)`: strip whitespace, optional sign, decimal digits. -/
def pyInt (l : List Char) : Option Int :=
  match pyStrip l with
  | '+' :: rest => (pyDigits rest).map (fun ds => (digitsToNat ds : Int))
  | '-' :: rest => (pyDigits rest).map (fun ds => -(digitsToNat ds : Int))
  | s => (pyDigits s).map (fun ds => (digitsToNat ds : Int))

/-- Outcome of the page-range parsing in `extract_clicked`: empty entry
means all pages; otherwise the entry is split on `'-'` and the parts fed
to `int(...)`, any failure of which shows the error dialog and aborts
(`invalid`).  Stored bounds are zero-indexed (`int(part) - 1`). -/
inductive RangeParse where
  | all : RangeParse
  | range : Int → Int → RangeParse
  | invalid : RangeParse
deriving DecidableEq

/-- The page-range parsing of `extract_clicked` (lines 252-266 of the
source):
`pr = entry.strip()`; empty means all pages; otherwise
`parts = pr.split('-')`; with exactly two parts both are parsed,
otherwise `parts[0]` alone is parsed and used as both bounds. -/
def parsePageRange (entry : List Char) : RangeParse :=
  if pyStrip entry = [] then RangeParse.all
  else
    if ((pyStrip entry).splitOn '-').length = 2 then
      match pyInt (((pyStrip entry).splitOn '-').headD []),
            pyInt (((pyStrip entry).splitOn '-').getD 1 []) with
      | some a, some b => RangeParse.range (a - 1) (b - 1)
      | _, _ => RangeParse.invalid
    else
      match pyInt (((pyStrip entry).splitOn '-').headD []) with
      | some a => RangeParse.range (a - 1) (a - 1)
      | none => RangeParse.invalid

/-- Python `range(s, e + 1)` over integers. -/
def intRange (s e : Int) : List Int :=
  (List.range (e + 1 - s).toNat).map (fun k => s + k)

/-- Loop body of `extract_text_from_pdf`: load page `i`
(`doc.load_page(i)`), strip its text, and when the result is non-empty
record `(i + 1, clean_text(text))`.  (Indices in the clamped iteration
range are always valid, so the `none` branch of the page lookup is
unreachable.) -/
def extractPage (doc : List (List Char)) (i : Int) : Option (Nat × List Char) :=
  match doc[i.toNat]? with
  | none => none
  | some raw =>
    if pyStrip raw = [] then none
    else some (i.toNat + 1, cleanText (pyStrip raw))

/-- `extract_text_from_pdf` from the source.  A document is the list of
its pages' raw texts.  `start_page = 0 if None else max(0, start_page)`;
`end_page = page_count - 1 if None else min(page_count - 1, end_page)`;
each `i` in `range(start_page, end_page + 1)` contributes its
`extractPage` record, empty pages skipped. -/
def extractTextFromPdf (doc : List (List Char)) (sp ep : Option Int) :
    List (Nat × List Char) :=
  (intRange
      (match sp with | none => 0 | some v => max 0 v)
      (match ep with
       | none => (doc.length : Int) - 1
       | some v => min ((doc.length : Int) - 1) v)).filterMap (extractPage doc)

/-- The control flow of `extract_clicked`: parse the page-range entry;
on a parse failure show the error and do nothing (`none` — the stored
page list is not touched and no extraction runs); otherwise run
`extract_text_from_pdf` with the parsed bounds. -/
def extractClicked (entry : List Char) (doc : List (List Char)) :
    Option (List (Nat × List Char)) :=
  match parsePageRange entry with
  | RangeParse.invalid => none
  | RangeParse.all => some (extractTextFromPdf doc none none)
  | RangeParse.range a b => some (extractTextFromPdf doc (some a) (some b))

/-- The two TTS engines selectable in the UI. -/
inductive EngineKind where
  | pyttsx3 : EngineKind
  | gtts : EngineKind
deriving DecidableEq

/-- Opaque synthesis-time error (whatever exception the engine raised). -/
structure SynthErr where
  msg : List Char
deriving DecidableEq

/-- Per-page outcome as logged by the conversion job: either
`Page {p} exported: {path}` or `Error saving page {p}: {e}`. -/
inductive PageOutcome where
  | exported : Nat → PageOutcome
  | failed : Nat → SynthErr → PageOutcome
deriving DecidableEq

/-- The text block handed to the engine for one page in
`convert_clicked`: the chunks joined with `"\n\n"` for pyttsx3 and with
`" "` for gTTS. -/
def pageFullText (engine : EngineKind) (chunkSize : Nat) (text : List Char) :
    List Char :=
  match engine with
  | EngineKind.pyttsx3 => List.intercalate ['\n', '\n'] (split text chunkSize)
  | EngineKind.gtts => List.intercalate [' '] (split text chunkSize)

/-- The per-page loop of the background job in `convert_clicked`
(lines 300-335): for each extracted page, chunk and join its text, call
the engine (abstracted by `synth`, the only effectful step), and record
the outcome; the `try/except` around the body makes any failure
non-fatal, so the loop always proceeds to the next page. -/
def convertJob (extracted : List (Nat × List Char)) (engine : EngineKind)
    (chunkSize : Nat) (synth : Nat → List Char → Except SynthErr Unit) :
    List PageOutcome :=
  match extracted with
  | [] => []
  | (p, text) :: rest =>
    (match synth p (pageFullText engine chunkSize text) with
     | Except.ok _ => PageOutcome.exported p
     | Except.error e => PageOutcome.failed p e) :: convertJob rest engine chunkSize synth

/-- Concrete page texts used in the specification's scenarios. -/
def helloPage : List Char := "Hello world".toList

/-- Second non-empty scenario page. -/
def morePage : List Char := "More text".toList

/-- Scenario document: pages "Hello world", "", "More text". -/
def sampleDoc : List (List Char) := [helloPage, [], morePage]

/-- Small three-page document for the range counterexample. -/
def sampleDoc3 : List (List Char) := [['a'], ['b'], ['c']]

/-- Five-page document with non-empty pages, for range scenarios. -/
def docFive : List (List Char) := [['a'], ['b'], ['c'], ['d'], ['e']]

/-- Length-5000 text whose only space sits at offset 3000: well inside
the first window, so the scenario of two chunks applies. -/
def twLong : List Char := List.replicate 3000 'a' ++ ' ' :: List.replicate 1999 'b'

/-- Length-5000 text whose only space sits at offset 1: the first chunk
ends at offset 1 and three chunks result. -/
def t0Long : List Char := 'a' :: ' ' :: List.replicate 4998 'b'

/-- Text whose only whitespace inside the first window is a newline. -/
def tNl : List Char := "ab\ncdef".toList

/-- Small text with spaces, for witnesses. -/
def tSp : List Char := "ab cd ef".toList

/-! Helper lemmas about the backward space search. -/

theorem rfindIn_eq_none (t : List Char) (c : Char) (a : Nat) :
    ∀ k, (∀ i, a ≤ i → i < a + k → t[i]? ≠ some c) → rfindIn t c a k = none := by
  intro k
  induction k with
  | zero => intro _; rfl
  | succ k ih =>
    intro h
    simp only [rfindIn]
    rw [if_neg (h (a + k) (by omega) (by omega))]
    exact ih (fun i h1 h2 => h i h1 (by omega))

theorem rfindIn_some_spec (t : List Char) (c : Char) (a : Nat) :
    ∀ k j, rfindIn t c a k = some j →
      a ≤ j ∧ j < a + k ∧ t[j]? = some c ∧
        ∀ i, j < i → i < a + k → t[i]? ≠ some c := by
  intro k
  induction k with
  | zero => intro j h; exact absurd h (by simp [rfindIn])
  | succ k ih =>
    intro j h
    simp only [rfindIn] at h
    by_cases hc : t[a + k]? = some c
    · rw [if_pos hc] at h
      obtain rfl : a + k = j := Option.some.inj h
      exact ⟨by omega, by omega, hc, fun i h1 h2 => by omega⟩
    · rw [if_neg hc] at h
      obtain ⟨h1, h2, h3, h4⟩ := ih j h
      refine ⟨h1, by omega, h3, fun i hi1 hi2 => ?_⟩
      by_cases hik : i = a + k
      · exact hik ▸ hc
      · exact h4 i hi1 (by omega)

theorem rfindIn_isSome (t : List Char) (c : Char) (a : Nat) :
    ∀ k i, a ≤ i → i < a + k → t[i]? = some c → (rfindIn t c a k).isSome = true := by
  intro k
  induction k with
  | zero => intro i h1 h2 _; omega
  | succ k ih =>
    intro i h1 h2 hc
    simp only [rfindIn]
    by_cases h : t[a + k]? = some c
    · rw [if_pos h]; rfl
    · rw [if_neg h]
      have hik : i ≠ a + k := fun he => h (he ▸ hc)
      exact ih i h1 (by omega) hc

theorem rfindIn_eq_some (t : List Char) (c : Char) (a k j : Nat)
    (hj : t[j]? = some c) (h1 : a ≤ j) (h2 : j < a + k)
    (hlast : ∀ i, j < i → i < a + k → t[i]? ≠ some c) :
    rfindIn t c a k = some j := by
  have hs := rfindIn_isSome t c a k j h1 h2 hj
  obtain ⟨j2, hj2⟩ := Option.isSome_iff_exists.mp hs
  obtain ⟨g1, g2, g3, g4⟩ := rfindIn_some_spec t c a k j2 hj2
  have heq : j2 = j := by
    rcases Nat.lt_trichotomy j2 j with hlt | heq | hgt
    · exact absurd hj (g4 j hlt h2)
    · exact heq
    · exact absurd g3 (hlast j2 hgt g2)
  rw [hj2, heq]

/-! Helper lemmas about one step of the chunking loop. -/

theorem nextEnd_le (t : List Char) (m s : Nat) :
    nextEnd t m s ≤ min (s + m) t.length := by
  unfold nextEnd
  split
  · split
    · rename_i ns heq
      obtain ⟨g1, g2, -, -⟩ := rfindIn_some_spec t ' ' s _ ns heq
      split
      · omega
      · exact le_refl _
    · exact le_refl _
  · exact le_refl _

theorem nextEnd_gt (t : List Char) (m s : Nat) (hm : 1 ≤ m) (hs : s < t.length) :
    s < nextEnd t m s := by
  have hmin : s < min (s + m) t.length := by omega
  unfold nextEnd
  split
  · split
    · rename_i ns heq
      split
      · assumption
      · exact hmin
    · exact hmin
  · exact hmin

/-- When the raw window edge is interior and the window holds a space
strictly after the cursor, the chosen end lands on a space; the only
other possibility overall is the window edge reaching the end of the
text. -/
theorem nextEnd_space (t : List Char) (m s : Nat)
    (hsp : ∃ i, s < i ∧ i < min (s + m) t.length ∧ t[i]? = some ' ') :
    nextEnd t m s = t.length ∨ t[nextEnd t m s]? = some ' ' := by
  obtain ⟨i, hi1, hi2, hi3⟩ := hsp
  unfold nextEnd
  split
  · rename_i h
    have hk : i < s + (min (s + m) t.length - s) := by omega
    have hsome := rfindIn_isSome t ' ' s (min (s + m) t.length - s) i (by omega) hk hi3
    split
    · rename_i ns heq
      obtain ⟨g1, g2, g3, g4⟩ := rfindIn_some_spec t ' ' s _ ns heq
      have hij : i ≤ ns := by
        by_contra hc
        exact g4 i (by omega) hk hi3
      rw [if_pos (by omega : s < ns)]
      exact Or.inr g3
    · rename_i heq
      rw [heq] at hsome
      exact absurd hsome (by simp)
  · rename_i h
    left
    omega

/-! Helper lemmas about the fueled chunking loop. -/

theorem chunkLoopF_fuel_eq (t : List Char) (m : Nat) (hm : 1 ≤ m) :
    ∀ f1 f2 s, t.length - s ≤ f1 → t.length - s ≤ f2 →
      chunkLoopF t m s f1 = chunkLoopF t m s f2 := by
  intro f1
  induction f1 with
  | zero =>
    intro f2 s h1 _
    have hs : ¬ s < t.length := by omega
    cases f2 with
    | zero => rfl
    | succ f2 => simp only [chunkLoopF]; rw [if_neg hs]
  | succ f1 ih =>
    intro f2 s h1 h2
    cases f2 with
    | zero =>
      have hs : ¬ s < t.length := by omega
      simp only [chunkLoopF]
      rw [if_neg hs]
    | succ f2 =>
      simp only [chunkLoopF]
      by_cases hs : s < t.length
      · rw [if_pos hs, if_pos hs]
        have hgt := nextEnd_gt t m s hm hs
        rw [ih f2 (nextEnd t m s) (by omega) (by omega)]
      · rw [if_neg hs, if_neg hs]

theorem chunkLoop_cons (t : List Char) (m s : Nat) (hm : 1 ≤ m)
    (hs : s < t.length) :
    chunkLoop t m s =
      ((t.drop s).take (nextEnd t m s - s)) :: chunkLoop t m (nextEnd t m s) := by
  unfold chunkLoop
  obtain ⟨k, hk⟩ : ∃ k, t.length - s = k + 1 := ⟨t.length - s - 1, by omega⟩
  rw [hk]
  simp only [chunkLoopF]
  rw [if_pos hs]
  have hgt := nextEnd_gt t m s hm hs
  rw [chunkLoopF_fuel_eq t m hm k (t.length - nextEnd t m s) (nextEnd t m s)
    (by omega) (by omega)]

theorem chunkLoop_nil (t : List Char) (m s : Nat) (hs : ¬ s < t.length) :
    chunkLoop t m s = [] := by
  unfold chunkLoop
  have h0 : t.length - s = 0 := by omega
  rw [h0]
  rfl

theorem chunkLoopF_flatten (t : List Char) (m : Nat) (hm : 1 ≤ m) :
    ∀ fuel s, t.length - s ≤ fuel → (chunkLoopF t m s fuel).flatten = t.drop s := by
  intro fuel
  induction fuel with
  | zero =>
    intro s h
    simp only [chunkLoopF, List.flatten_nil]
    exact (List.drop_eq_nil_of_le (by omega)).symm
  | succ fuel ih =>
    intro s h
    simp only [chunkLoopF]
    by_cases hs : s < t.length
    · have h1 := nextEnd_gt t m s hm hs
      rw [if_pos hs, List.flatten_cons, ih (nextEnd t m s) (by omega)]
      have hdd : t.drop (nextEnd t m s) = (t.drop s).drop (nextEnd t m s - s) := by
        rw [List.drop_drop]
        congr 1
        omega
      rw [hdd, List.take_append_drop]
    · rw [if_neg hs]
      simp only [List.flatten_nil]
      exact (List.drop_eq_nil_of_le (by omega)).symm

theorem chunkLoopF_length_le (t : List Char) (m : Nat) :
    ∀ fuel s, ∀ c ∈ chunkLoopF t m s fuel, c.length ≤ m := by
  intro fuel
  induction fuel with
  | zero => intro s c hc; exact absurd hc (by simp [chunkLoopF])
  | succ fuel ih =>
    intro s c hc
    simp only [chunkLoopF] at hc
    by_cases hs : s < t.length
    · rw [if_pos hs] at hc
      rcases List.mem_cons.mp hc with h | h
      · subst h
        have hle := nextEnd_le t m s
        simp only [List.length_take, List.length_drop]
        omega
      · exact ih (nextEnd t m s) c h
    · rw [if_neg hs] at hc
      exact absurd hc (by simp)

theorem chunkLoopF_ne_nil (t : List Char) (m : Nat) (hm : 1 ≤ m) :
    ∀ fuel s, ∀ c ∈ chunkLoopF t m s fuel, c ≠ [] := by
  intro fuel
  induction fuel with
  | zero => intro s c hc; exact absurd hc (by simp [chunkLoopF])
  | succ fuel ih =>
    intro s c hc
    simp only [chunkLoopF] at hc
    by_cases hs : s < t.length
    · rw [if_pos hs] at hc
      rcases List.mem_cons.mp hc with h | h
      · subst h
        have hgt := nextEnd_gt t m s hm hs
        have : 0 < ((t.drop s).take (nextEnd t m s - s)).length := by
          simp only [List.length_take, List.length_drop]
          omega
        exact List.length_pos.mp this
      · exact ih (nextEnd t m s) c h
    · rw [if_neg hs] at hc
      exact absurd hc (by simp)

theorem chunkLoopF_eq_map_bounds (t : List Char) (m : Nat) :
    ∀ fuel s, chunkLoopF t m s fuel =
      (chunkBoundsF t m s fuel).map (fun p => (t.drop p.1).take (p.2 - p.1)) := by
  intro fuel
  induction fuel with
  | zero => intro s; rfl
  | succ fuel ih =>
    intro s
    simp only [chunkLoopF, chunkBoundsF]
    by_cases hs : s < t.length
    · rw [if_pos hs, if_pos hs]
      simp only [List.map_cons]
      rw [ih]
    · rw [if_neg hs, if_neg hs]
      rfl

theorem chunkBoundsF_mem (t : List Char) (m : Nat) :
    ∀ fuel s, ∀ p ∈ chunkBoundsF t m s fuel, p.2 = nextEnd t m p.1 := by
  intro fuel
  induction fuel with
  | zero => intro s p hp; exact absurd hp (by simp [chunkBoundsF])
  | succ fuel ih =>
    intro s p hp
    simp only [chunkBoundsF] at hp
    by_cases hs : s < t.length
    · rw [if_pos hs] at hp
      rcases List.mem_cons.mp hp with h | h
      · subst h; rfl
      · exact ih (nextEnd t m s) p h
    · rw [if_neg hs] at hp
      exact absurd hp (by simp)

/-! Helper lemmas about text normalization. -/

theorem pyStrip_eq_nil_iff (l : List Char) :
    pyStrip l = [] ↔ ∀ c ∈ l, isPySpace c = true := by
  unfold pyStrip
  rw [List.reverse_eq_nil_iff, List.dropWhile_eq_nil_iff]
  constructor
  · intro h c hc
    have hsplit := List.takeWhile_append_dropWhile isPySpace l
    rw [← hsplit] at hc
    rcases List.mem_append.mp hc with h1 | h1
    · exact List.mem_takeWhile_imp h1
    · exact h c (List.mem_reverse.mpr h1)
  · intro h c hc
    exact h c ((List.dropWhile_sublist isPySpace).subset (List.mem_reverse.mp hc))

theorem subBlankF_mem (c : Char) (hc : isPySpace c = false) :
    ∀ fuel l, c ∈ l → c ∈ subBlankF fuel l := by
  intro fuel
  induction fuel with
  | zero => intro l h; exact h
  | succ fuel ih =>
    intro l h
    cases l with
    | nil => exact absurd h (by simp)
    | cons a rest =>
      simp only [subBlankF]
      by_cases ha : a = '\n'
      · rw [if_pos ha]
        split
        · rename_i k heq
          have hca : c ≠ a := by
            intro hh
            rw [hh, ha] at hc
            exact absurd hc (by decide)
          have hcr : c ∈ rest := by
            rcases List.mem_cons.mp h with h1 | h1
            · exact absurd h1 hca
            · exact h1
          obtain ⟨g1, g2, -, -⟩ :=
            rfindIn_some_spec (rest.takeWhile isPySpace) '\n' 0 _ k heq
          have htake : ∀ x ∈ rest.take (k+1), isPySpace x = true := by
            intro x hx
            have hlen : k + 1 ≤ (rest.takeWhile isPySpace).length := by omega
            have hre : rest.take (k+1) = (rest.takeWhile isPySpace).take (k+1) := by
              conv_lhs => rw [← List.takeWhile_append_dropWhile isPySpace rest]
              exact List.take_append_of_le_length hlen
            rw [hre] at hx
            exact List.mem_takeWhile_imp (List.take_subset _ _ hx)
          have hdropmem : c ∈ rest.drop (k+1) := by
            have hsp := List.take_append_drop (k+1) rest
            rw [← hsp] at hcr
            rcases List.mem_append.mp hcr with h1 | h1
            · rw [htake c h1] at hc
              exact absurd hc (by decide)
            · exact h1
          exact List.mem_cons_of_mem _ (List.mem_cons_of_mem _ (ih _ hdropmem))
        · rcases List.mem_cons.mp h with h1 | h1
          · subst h1; exact List.mem_cons_self _ _
          · exact List.mem_cons_of_mem _ (ih _ h1)
      · rw [if_neg ha]
        rcases List.mem_cons.mp h with h1 | h1
        · subst h1; exact List.mem_cons_self _ _
        · exact List.mem_cons_of_mem _ (ih _ h1)

/-- A text whose normalization (`clean_text`) is empty is entirely
whitespace, hence already empty after the bare strip the extractor
tests. -/
theorem cleanText_eq_nil (l : List Char) (h : cleanText l = []) :
    pyStrip l = [] := by
  by_contra hne
  rw [pyStrip_eq_nil_iff] at hne
  push_neg at hne
  obtain ⟨c, hcl, hcs⟩ := hne
  have hcs2 : isPySpace c = false := by
    cases hb : isPySpace c
    · rfl
    · exact absurd hb hcs
  have h1 : c ∈ subBlankLines l := subBlankF_mem c hcs2 l.length l hcl
  have h2 : c ∈ (subBlankLines l).filter (fun x => x != '\x0c') := by
    rw [List.mem_filter]
    refine ⟨h1, ?_⟩
    have hcne : c ≠ '\x0c' := by
      intro hh
      rw [hh] at hcs2
      exact absurd hcs2 (by decide)
    simpa using hcne
  unfold cleanText at h
  have h3 := (pyStrip_eq_nil_iff _).mp h c h2
  rw [hcs2] at h3
  exact absurd h3 (by decide)

/-- When no space occurs strictly after the cursor inside the window,
the chosen end is the raw window edge. -/
theorem nextEnd_eq_min (t : List Char) (m s : Nat)
    (hns : ∀ i, s < i → i < min (s + m) t.length → t[i]? ≠ some ' ') :
    nextEnd t m s = min (s + m) t.length := by
  unfold nextEnd
  split
  · split
    · rename_i ns heq
      obtain ⟨g1, g2, g3, -⟩ := rfindIn_some_spec t ' ' s _ ns heq
      have hn : ¬ s < ns := by
        intro hlt
        exact hns ns hlt (by omega) g3
      rw [if_neg hn]
    · rfl
  · rfl

/-- Chunk concatenation reconstructs the text (both branches of the
algorithm). -/
theorem split_flatten (t : List Char) (m : Nat) (hm : 1 ≤ m) :
    (split t m).flatten = t := by
  unfold split
  by_cases h : t.length ≤ m
  · rw [if_pos h]
    simp
  · rw [if_neg h]
    unfold chunkLoop
    rw [chunkLoopF_flatten t m hm (t.length - 0) 0 (le_refl _)]
    exact List.drop_zero t

/-- Every chunk of either branch is at most `m` characters long. -/
theorem split_le (t : List Char) (m : Nat) :
    ∀ c ∈ split t m, c.length ≤ m := by
  intro c hc
  unfold split at hc
  by_cases h : t.length ≤ m
  · rw [if_pos h] at hc
    rcases List.mem_cons.mp hc with h1 | h1
    · subst h1; exact h
    · exact absurd h1 (by simp)
  · rw [if_neg h] at hc
    exact chunkLoopF_length_le t m _ _ c hc

/-- A text longer than the limit is cut into at least two chunks. -/
theorem split_length_two (t : List Char) (m : Nat) (hm : 1 ≤ m)
    (hlong : m < t.length) : 2 ≤ (split t m).length := by
  unfold split
  rw [if_neg (by omega)]
  rw [chunkLoop_cons t m 0 hm (by omega)]
  have h2 : nextEnd t m 0 < t.length := by
    have := nextEnd_le t m 0
    omega
  rw [chunkLoop_cons t m _ hm h2]
  simp only [List.length_cons]
  omega

/-- C1 (confirmed): for every page text `T` and every `maxSize ≥ 1`,
concatenating the chunks of `split T maxSize` in order, without any
separator, yields exactly `T` — no character is lost or duplicated. -/
theorem chunks_concat_exact (t : List Char) (m : Nat) (hm : 1 ≤ m) :
    (split t m).flatten = t :=
  split_flatten t m hm

/-- Witness for chunks_concat_exact at a concrete input. -/
theorem chunks_concat_exact_wit : (split tSp 3).flatten = tSp :=
  chunks_concat_exact tSp 3 (by decide)

/-- C2 (confirmed): for every page text and every `maxSize ≥ 1`, every
chunk satisfies `len(chunk) ≤ maxSize`; the code never produces the
permitted oversized exception, because an unbroken token is cut at the
raw window edge. -/
theorem chunks_length_le (t : List Char) (m : Nat) (_hm : 1 ≤ m) :
    ∀ c ∈ split t m, c.length ≤ m :=
  split_le t m

/-- Witness for chunks_length_le at a concrete input and chunk. -/
theorem chunks_length_le_wit : (tSp.take 2).length ≤ 3 :=
  chunks_length_le tSp 3 (by decide) (tSp.take 2) (by decide)

/-- C3 counterexample: the text `"aaaaa"` is a single unbroken token of
length 5 > 2, yet `split` does not emit it as one oversized chunk — it
cuts it at the raw window edges into `["aa", "aa", "a"]`. -/
theorem long_token_one_chunk_cex :
    (∀ c ∈ List.replicate 5 'a', isPySpace c = false) ∧
    2 < (List.replicate 5 'a').length ∧
    split (List.replicate 5 'a') 2 = [['a', 'a'], ['a', 'a'], ['a']] := by
  decide

/-- C3 (corrected): when a whitespace-free text exceeds the limit the
chunker does not emit one oversized chunk; it splits the token at raw
window edges (the first chunk is exactly the raw window `t.take m`),
every chunk stays within the limit, at least two chunks result, and no
data is lost. -/
theorem long_token_window_split (t : List Char) (m : Nat) (hm : 1 ≤ m)
    (hlong : m < t.length) (htok : ∀ c ∈ t, isPySpace c = false) :
    (split t m).flatten = t ∧ (∀ c ∈ split t m, c.length ≤ m) ∧
      2 ≤ (split t m).length ∧ (split t m).headD [] = t.take m := by
  refine ⟨split_flatten t m hm, split_le t m, split_length_two t m hm hlong, ?_⟩
  have hns : ∀ i, 0 < i → i < min (0 + m) t.length → t[i]? ≠ some ' ' := by
    intro i _ _ hc
    have hw := htok ' ' (List.getElem?_mem hc)
    exact absurd hw (by decide)
  unfold split
  rw [if_neg (by omega)]
  rw [chunkLoop_cons t m 0 hm (by omega)]
  rw [nextEnd_eq_min t m 0 hns]
  simp only [List.headD_cons, List.drop_zero, Nat.sub_zero]
  congr 1
  omega

/-- Witness for long_token_window_split at a concrete input. -/
theorem long_token_window_split_wit :
    (split (List.replicate 5 'a') 2).flatten = List.replicate 5 'a' ∧
    (∀ c ∈ split (List.replicate 5 'a') 2, c.length ≤ 2) ∧
    2 ≤ (split (List.replicate 5 'a') 2).length ∧
    (split (List.replicate 5 'a') 2).headD [] = (List.replicate 5 'a').take 2 :=
  long_token_window_split (List.replicate 5 'a') 2 (by decide) (by decide) (by decide)

/-- C4 counterexample: in `"ab\ncdef"` with `maxSize = 4`, the window
`(0, 4)` contains the whitespace `'\n'` at index 2, yet the first chunk
boundary (position 4) falls strictly inside the token `"cdef"` — the
characters on both sides of the boundary are non-whitespace — because
the code searches backward only for the space character `' '`. -/
theorem whitespace_boundary_cex :
    isPySpace '\n' = true ∧
    tNl[2]? = some '\n' ∧ (0 : Nat) < 2 ∧ 2 < min (0 + 4) tNl.length ∧
    splitBounds tNl 4 = [(0, 4), (4, 7)] ∧
    tNl[3]? = some 'c' ∧ tNl[4]? = some 'd' ∧
    isPySpace 'c' = false ∧ isPySpace 'd' = false ∧
    split tNl 4 = [['a', 'b', '\n', 'c'], ['d', 'e', 'f']] := by
  decide

/-- C4 (corrected): the chunks are exactly the substrings delimited by
`splitBounds`, and whenever the window holds a space character `' '`
(the only character the backward search looks for) strictly after the
cursor, the chunk either ends on that last space or reaches the end of
the text — so no boundary falls strictly inside a space-delimited
token.  Other whitespace (newline, tab) is not a boundary opportunity. -/
theorem chunk_boundaries_on_spaces (t : List Char) (m : Nat) :
    split t m = (splitBounds t m).map (fun p => (t.drop p.1).take (p.2 - p.1)) ∧
    ∀ p ∈ splitBounds t m,
      (∃ i, p.1 < i ∧ i < min (p.1 + m) t.length ∧ t[i]? = some ' ') →
      p.2 = t.length ∨ t[p.2]? = some ' ' := by
  constructor
  · unfold split splitBounds
    by_cases h : t.length ≤ m
    · rw [if_pos h, if_pos h]
      simp [List.take_length]
    · rw [if_neg h, if_neg h]
      exact chunkLoopF_eq_map_bounds t m _ 0
  · intro p hp hsp
    unfold splitBounds at hp
    by_cases h : t.length ≤ m
    · rw [if_pos h] at hp
      rcases List.mem_cons.mp hp with h1 | h1
      · subst h1
        left
        rfl
      · exact absurd h1 (by simp)
    · rw [if_neg h] at hp
      have hb := chunkBoundsF_mem t m _ 0 p hp
      rw [hb]
      exact nextEnd_space t m p.1 hsp

/-- Witness for chunk_boundaries_on_spaces at a concrete input. -/
theorem chunk_boundaries_on_spaces_wit :
    split tSp 3 = (splitBounds tSp 3).map (fun p => (tSp.drop p.1).take (p.2 - p.1)) ∧
    ∀ p ∈ splitBounds tSp 3,
      (∃ i, p.1 < i ∧ i < min (p.1 + 3) tSp.length ∧ tSp[i]? = some ' ') →
      p.2 = tSp.length ∨ tSp[p.2]? = some ' ' :=
  chunk_boundaries_on_spaces tSp 3

/-- C10 (confirmed): for every text and every `maxSize ≥ 1` the chunking
loop advances: from any cursor inside the text the chosen end is
strictly greater than the cursor and at most `min (cursor + maxSize,
len)`, so the loop terminates (the fueled model is exact) and every
chunk it emits is a non-empty substring. -/
theorem chunk_loop_advances (t : List Char) (m : Nat) (hm : 1 ≤ m) :
    (∀ s, s < t.length →
        s < nextEnd t m s ∧ nextEnd t m s ≤ min (s + m) t.length) ∧
    (∀ s, ∀ c ∈ chunkLoop t m s, c ≠ []) := by
  constructor
  · intro s hs
    exact ⟨nextEnd_gt t m s hm hs, nextEnd_le t m s⟩
  · intro s c hc
    exact chunkLoopF_ne_nil t m hm _ s c hc

/-- Witness for chunk_loop_advances at a concrete input. -/
theorem chunk_loop_advances_wit :
    (∀ s, s < tSp.length →
        s < nextEnd tSp 3 s ∧ nextEnd tSp 3 s ≤ min (s + 3) tSp.length) ∧
    (∀ s, ∀ c ∈ chunkLoop tSp 3 s, c ≠ []) :=
  chunk_loop_advances tSp 3 (by decide)

/-- When the raw window edge is interior and a space exists in the
window strictly after the cursor, the chosen end is the last such
space. -/
theorem nextEnd_space_last (t : List Char) (m s : Nat)
    (h : min (s + m) t.length < t.length)
    (hsp : ∃ i, s < i ∧ i < min (s + m) t.length ∧ t[i]? = some ' ') :
    t[nextEnd t m s]? = some ' ' ∧
      ∀ j, nextEnd t m s < j → j < min (s + m) t.length → t[j]? ≠ some ' ' := by
  obtain ⟨i, hi1, hi2, hi3⟩ := hsp
  have hk : i < s + (min (s + m) t.length - s) := by omega
  have hsome := rfindIn_isSome t ' ' s (min (s + m) t.length - s) i (by omega) hk hi3
  obtain ⟨ns, hns⟩ := Option.isSome_iff_exists.mp hsome
  obtain ⟨g1, g2, g3, g4⟩ := rfindIn_some_spec t ' ' s _ ns hns
  have hij : i ≤ ns := by
    by_contra hc
    exact g4 i (by omega) hk hi3
  have hne : nextEnd t m s = ns := by
    unfold nextEnd
    rw [if_pos h]
    split
    · rename_i ns2 heq2
      rw [hns] at heq2
      have hnn : ns2 = ns := (Option.some.inj heq2).symm
      rw [hnn, if_pos (by omega : s < ns)]
    · rename_i heq2
      rw [heq2] at hns
      cases hns
  rw [hne]
  exact ⟨g3, fun j hj1 hj2 => g4 j hj1 (by omega)⟩

theorem t0Long_length : t0Long.length = 5000 := by
  unfold t0Long
  rw [List.length_cons, List.length_cons, List.length_replicate]

theorem getElem?_replicate_spec (a : Char) (n i : Nat) :
    (List.replicate n a)[i]? = if i < n then some a else none := by
  by_cases h : i < n
  · rw [if_pos h, List.getElem?_eq_getElem (by simpa using h), List.getElem_replicate]
  · rw [if_neg h]
    exact List.getElem?_eq_none (by simpa using Nat.le_of_not_lt h)

theorem t0Long_get (i : Nat) :
    t0Long[i]? = if i = 0 then some 'a' else if i = 1 then some ' '
      else if i < 5000 then some 'b' else none := by
  unfold t0Long
  rcases i with _ | i
  · rw [List.getElem?_cons_zero, if_pos rfl]
  · rcases i with _ | n
    · rw [List.getElem?_cons_succ, List.getElem?_cons_zero]
      norm_num
    · simp only [List.getElem?_cons_succ]
      rw [getElem?_replicate_spec]
      by_cases h : n < 4998
      · rw [if_pos h, if_neg (by omega), if_neg (by omega), if_pos (by omega)]
      · rw [if_neg h, if_neg (by omega), if_neg (by omega), if_neg (by omega)]

theorem t0Long_nextEnd0 : nextEnd t0Long 3500 0 = 1 := by
  have h1 : min (0 + 3500) t0Long.length = 3500 := by
    rw [t0Long_length]
    omega
  have hfind : rfindIn t0Long ' ' 0 (min (0 + 3500) t0Long.length - 0) = some 1 := by
    rw [h1]
    apply rfindIn_eq_some
    · rw [t0Long_get]
      rfl
    · omega
    · omega
    · intro j a b hc
      rw [t0Long_get] at hc
      rw [if_neg (by omega), if_neg (by omega), if_pos (by omega)] at hc
      exact absurd hc (by decide)
  unfold nextEnd
  rw [if_pos (by rw [h1, t0Long_length]; decide)]
  split
  · rename_i ns heq
    rw [hfind] at heq
    obtain rfl := Option.some.inj heq
    rw [if_pos (by decide : (0 : Nat) < 1)]
  · rename_i heq
    rw [heq] at hfind
    cases hfind

theorem t0Long_nextEnd1 : nextEnd t0Long 3500 1 = 3501 := by
  have h1 : min (1 + 3500) t0Long.length = 3501 := by
    rw [t0Long_length]
    omega
  have hfind : rfindIn t0Long ' ' 1 (min (1 + 3500) t0Long.length - 1) = some 1 := by
    rw [h1]
    apply rfindIn_eq_some
    · rw [t0Long_get]
      rfl
    · omega
    · omega
    · intro j a b hc
      rw [t0Long_get] at hc
      rw [if_neg (by omega), if_neg (by omega), if_pos (by omega)] at hc
      exact absurd hc (by decide)
  unfold nextEnd
  rw [if_pos (by rw [h1, t0Long_length]; decide)]
  split
  · rename_i ns heq
    rw [hfind] at heq
    obtain rfl := Option.some.inj heq
    rw [if_neg (by decide : ¬ (1 : Nat) < 1)]
    exact h1
  · rename_i heq
    rw [heq] at hfind
    cases hfind

theorem nextEnd_eq_len (t : List Char) (m s : Nat)
    (h : min (s + m) t.length = t.length) : nextEnd t m s = t.length := by
  unfold nextEnd
  rw [h, if_neg (lt_irrefl _)]

theorem t0Long_nextEnd2 : nextEnd t0Long 3500 3501 = 5000 := by
  rw [nextEnd_eq_len t0Long 3500 3501 (by rw [t0Long_length]; omega)]
  exact t0Long_length

/-- C9 counterexample: `t0Long` has length 5000 but its only space sits
at offset 1, so with `chunkSize = 3500` the loop produces three chunks
(of lengths 1, 3500, 1499), not two. -/
theorem page5000_three_chunks_cex :
    t0Long.length = 5000 ∧ (split t0Long 3500).length = 3 := by
  refine ⟨t0Long_length, ?_⟩
  unfold split
  rw [if_neg (by rw [t0Long_length]; decide)]
  rw [chunkLoop_cons t0Long 3500 0 (by decide) (by rw [t0Long_length]; decide)]
  rw [t0Long_nextEnd0]
  rw [chunkLoop_cons t0Long 3500 1 (by decide) (by rw [t0Long_length]; decide)]
  rw [t0Long_nextEnd1]
  rw [chunkLoop_cons t0Long 3500 3501 (by decide) (by rw [t0Long_length]; decide)]
  rw [t0Long_nextEnd2]
  rw [chunkLoop_nil t0Long 3500 5000 (by rw [t0Long_length]; decide)]
  rfl

/-- C9 (corrected): for a page text of length 5000 with `chunkSize =
3500`, the first chunk ends at the last space character strictly before
offset 3500 when one exists strictly after position 0 (and at offset
3500 otherwise); the result is exactly two chunks provided that this
first boundary lies at offset ≥ 1500 (texts with only early spaces
yield more chunks — see the counterexample). -/
theorem page5000_two_chunks (t : List Char) (h : t.length = 5000)
    (hb : 1500 ≤ nextEnd t 3500 0) :
    split t 3500 = [t.take (nextEnd t 3500 0), t.drop (nextEnd t 3500 0)] ∧
    ((∃ i, 0 < i ∧ i < 3500 ∧ t[i]? = some ' ') →
      t[nextEnd t 3500 0]? = some ' ' ∧
      ∀ j, nextEnd t 3500 0 < j → j < 3500 → t[j]? ≠ some ' ') ∧
    ((∀ i, 0 < i → i < 3500 → t[i]? ≠ some ' ') → nextEnd t 3500 0 = 3500) := by
  have hble := nextEnd_le t 3500 0
  refine ⟨?_, ?_, ?_⟩
  · unfold split
    rw [if_neg (by omega)]
    rw [chunkLoop_cons t 3500 0 (by decide) (by omega)]
    have hb2 : nextEnd t 3500 0 < t.length := by omega
    rw [chunkLoop_cons t 3500 (nextEnd t 3500 0) (by decide) hb2]
    have hmin2 : min (nextEnd t 3500 0 + 3500) t.length = t.length := by omega
    have hne2 : nextEnd t 3500 (nextEnd t 3500 0) = t.length :=
      nextEnd_eq_len t 3500 (nextEnd t 3500 0) hmin2
    rw [hne2]
    rw [chunkLoop_nil t 3500 t.length (lt_irrefl _)]
    have hdl : t.length - nextEnd t 3500 0 = (t.drop (nextEnd t 3500 0)).length := by
      rw [List.length_drop]
    rw [hdl, List.take_length]
    simp only [List.drop_zero, Nat.sub_zero]
  · intro hex
    have hh : min (0 + 3500) t.length < t.length := by omega
    have hex2 : ∃ i, 0 < i ∧ i < min (0 + 3500) t.length ∧ t[i]? = some ' ' := by
      obtain ⟨i, a, b, c⟩ := hex
      exact ⟨i, a, by omega, c⟩
    obtain ⟨w1, w2⟩ := nextEnd_space_last t 3500 0 hh hex2
    exact ⟨w1, fun j hj1 hj2 => w2 j hj1 (by omega)⟩
  · intro hnsp
    have hcond : ∀ i, 0 < i → i < min (0 + 3500) t.length → t[i]? ≠ some ' ' := by
      intro i a b
      exact hnsp i a (by omega)
    rw [nextEnd_eq_min t 3500 0 hcond]
    omega

theorem twLong_length : twLong.length = 5000 := by
  unfold twLong
  rw [List.length_append, List.length_cons, List.length_replicate, List.length_replicate]

theorem twLong_get (i : Nat) :
    twLong[i]? = if i < 3000 then some 'a' else if i = 3000 then some ' '
      else if i < 5000 then some 'b' else none := by
  unfold twLong
  rw [List.getElem?_append, List.length_replicate]
  by_cases h : i < 3000
  · rw [if_pos h, if_pos h, getElem?_replicate_spec, if_pos h]
  · rw [if_neg h, if_neg h]
    by_cases h2 : i = 3000
    · subst h2
      rw [if_pos rfl]
      norm_num
    · rw [if_neg h2]
      have h3 : i - 3000 = (i - 3001) + 1 := by omega
      rw [h3, List.getElem?_cons_succ, getElem?_replicate_spec]
      by_cases h4 : i < 5000
      · rw [if_pos (by omega : i - 3001 < 1999), if_pos h4]
      · rw [if_neg (by omega : ¬ i - 3001 < 1999), if_neg h4]

theorem twLong_nextEnd : nextEnd twLong 3500 0 = 3000 := by
  have h1 : min (0 + 3500) twLong.length = 3500 := by
    rw [twLong_length]
    omega
  have hfind : rfindIn twLong ' ' 0 (min (0 + 3500) twLong.length - 0) = some 3000 := by
    rw [h1]
    apply rfindIn_eq_some
    · rw [twLong_get]
      rw [if_neg (by omega), if_pos rfl]
    · omega
    · omega
    · intro j a b hc
      rw [twLong_get] at hc
      rw [if_neg (by omega), if_neg (by omega), if_pos (by omega)] at hc
      exact absurd hc (by decide)
  unfold nextEnd
  rw [if_pos (by rw [h1, twLong_length]; decide)]
  split
  · rename_i ns heq
    rw [hfind] at heq
    obtain rfl := Option.some.inj heq
    rw [if_pos (by decide : (0 : Nat) < 3000)]
  · rename_i heq
    rw [heq] at hfind
    cases hfind

/-- Witness for page5000_two_chunks: `twLong` has its last space before
offset 3500 at position 3000 ≥ 1500, and splits into exactly the two
chunks around it. -/
theorem page5000_two_chunks_wit :
    split twLong 3500 = [twLong.take 3000, twLong.drop 3000] := by
  have h := page5000_two_chunks twLong twLong_length (by rw [twLong_nextEnd]; decide)
  rw [twLong_nextEnd] at h
  exact h.1

/-! Helper lemmas about extraction and range parsing. -/

theorem extractClicked_range (entry : List Char) (doc : List (List Char)) (a b : Int)
    (h : parsePageRange entry = RangeParse.range a b) :
    extractClicked entry doc = some (extractTextFromPdf doc (some a) (some b)) := by
  unfold extractClicked
  rw [h]

theorem extractClicked_invalid (entry : List Char) (doc : List (List Char))
    (h : parsePageRange entry = RangeParse.invalid) :
    extractClicked entry doc = none := by
  unfold extractClicked
  rw [h]

theorem extractTextFromPdf_some_some (doc : List (List Char)) (a b : Int) :
    extractTextFromPdf doc (some a) (some b) =
      (intRange (max 0 a) (min ((doc.length : Int) - 1) b)).filterMap
        (extractPage doc) := rfl

theorem extractPage_eval (doc : List (List Char)) (i : Int) (raw : List Char)
    (hraw : doc[i.toNat]? = some raw) :
    extractPage doc i = if pyStrip raw = [] then none
      else some (i.toNat + 1, cleanText (pyStrip raw)) := by
  unfold extractPage
  rw [hraw]

theorem extractPage_some_inv (doc : List (List Char)) (i : Int) (p : Nat × List Char)
    (h : extractPage doc i = some p) :
    ∃ raw, doc[i.toNat]? = some raw ∧ pyStrip raw ≠ [] ∧
      p = (i.toNat + 1, cleanText (pyStrip raw)) := by
  unfold extractPage at h
  split at h
  · cases h
  · rename_i raw hraw
    split at h
    · cases h
    · rename_i hst
      exact ⟨raw, hraw, hst, (Option.some.inj h).symm⟩

/-- C6 (confirmed): a page whose normalized (cleaned, trimmed) text is
empty never appears in the extracted page list and extraction stays
total (no error); the scenario document with pages "Hello world", "",
"More text" over range "1-3" yields exactly the entries for pages 1
and 3. -/
theorem empty_page_skipped (doc : List (List Char)) (sp ep : Option Int)
    (i : Nat) (raw : List Char) (hraw : doc[i]? = some raw)
    (hempty : cleanText raw = []) :
    (∀ p ∈ extractTextFromPdf doc sp ep, p.1 ≠ i + 1) ∧
    extractClicked ("1-3".toList) sampleDoc = some [(1, helloPage), (3, morePage)] := by
  constructor
  · intro p hp hcontra
    unfold extractTextFromPdf at hp
    rw [List.mem_filterMap] at hp
    obtain ⟨a, _, hfa⟩ := hp
    obtain ⟨raw2, hdoc, hst, hpval⟩ := extractPage_some_inv doc a p hfa
    have hai : a.toNat = i := by
      have : p.1 = a.toNat + 1 := by rw [hpval]
      omega
    rw [hai, hraw] at hdoc
    rw [← Option.some.inj hdoc] at hst
    exact hst (cleanText_eq_nil raw hempty)
  · decide

/-- Witness for empty_page_skipped: in the scenario document page 2 is
empty, and page number 2 indeed never appears. -/
theorem empty_page_skipped_wit :
    (∀ p ∈ extractTextFromPdf sampleDoc (some 0) (some 2), p.1 ≠ 2) ∧
    extractClicked ("1-3".toList) sampleDoc = some [(1, helloPage), (3, morePage)] :=
  empty_page_skipped sampleDoc (some 0) (some 2) 1 [] (by decide) (by decide)

/-- C7 (confirmed): on any document with at least five pages whose pages
2-5 are non-empty, range "2-2" extracts exactly page 2 and range "3-5"
extracts exactly pages 3, 4, 5 in ascending order, with 1-indexed page
numbers matching the document's pagination. -/
theorem page_ranges_extract (doc : List (List Char)) (h5 : 5 ≤ doc.length)
    (hne : ∀ i ∈ [1, 2, 3, 4], pyStrip (doc.getD i []) ≠ []) :
    ((extractClicked ("2-2".toList) doc).map (List.map Prod.fst)) = some [2] ∧
    ((extractClicked ("3-5".toList) doc).map (List.map Prod.fst)) = some [3, 4, 5] := by
  have hpage : ∀ i : Nat, i < doc.length →
      doc[i]? = some (doc.getD i []) := by
    intro i hi
    rw [List.getD_eq_getElem?_getD, List.getElem?_eq_getElem hi]
    rfl
  have hp : ∀ i ∈ [1, 2, 3, 4], ∀ j : Int, j.toNat = i →
      extractPage doc j = some (i + 1, cleanText (pyStrip (doc.getD i []))) := by
    intro i hi j hj
    have hlt : i < doc.length := by
      have hi4 : i = 1 ∨ i = 2 ∨ i = 3 ∨ i = 4 := by simpa using hi
      rcases hi4 with h | h | h | h
      all_goals omega
    have hr : doc[j.toNat]? = some (doc.getD i []) := by
      rw [hj]
      exact hpage i hlt
    rw [extractPage_eval doc j (doc.getD i []) hr]
    rw [if_neg (hne i hi), hj]
  constructor
  · rw [extractClicked_range ("2-2".toList) doc 1 1 (by decide)]
    rw [extractTextFromPdf_some_some]
    have hmax : max (0 : Int) 1 = 1 := by decide
    have hmin : min ((doc.length : Int) - 1) 1 = 1 := by omega
    have hint : intRange 1 1 = [(1 : Int)] := by decide
    rw [hmax, hmin, hint]
    rw [List.filterMap_cons, hp 1 (by decide) 1 (by decide)]
    rfl
  · rw [extractClicked_range ("3-5".toList) doc 2 4 (by decide)]
    rw [extractTextFromPdf_some_some]
    have hmax : max (0 : Int) 2 = 2 := by decide
    have hmin : min ((doc.length : Int) - 1) 4 = 4 := by omega
    have hint : intRange 2 4 = [(2 : Int), 3, 4] := by decide
    rw [hmax, hmin, hint]
    rw [List.filterMap_cons, hp 2 (by decide) 2 (by decide)]
    rw [List.filterMap_cons, hp 3 (by decide) 3 (by decide)]
    rw [List.filterMap_cons, hp 4 (by decide) 4 (by decide)]
    rfl

/-- Witness for page_ranges_extract on a five-page document. -/
theorem page_ranges_extract_wit :
    ((extractClicked ("2-2".toList) docFive).map (List.map Prod.fst)) = some [2] ∧
    ((extractClicked ("3-5".toList) docFive).map (List.map Prod.fst)) = some [3, 4, 5] :=
  page_ranges_extract docFive (by decide) (by decide)

/-- C8 counterexample: `"1-2-3"` is a non-empty expression that is not
of the literal form `"<start>"` or `"<start>-<end>"`, yet it is not
rejected: it splits into three parts, falls into the single-page branch,
and extraction runs as if page 1 had been requested. -/
theorem malformed_range_accepted_cex :
    parsePageRange ("1-2-3".toList) = RangeParse.range 0 0 ∧
    extractClicked ("1-2-3".toList) sampleDoc3 = some [(1, ['a'])] := by
  decide

/-- C8 (corrected): rejection happens exactly when `int(...)` fails on
the dash-separated parts the code inspects; in particular every
non-empty expression whose first dash-separated part does not parse as
a Python integer is rejected before extraction begins, with no side
effect (no page list is produced).  Expressions whose inspected parts do
parse — such as `"1-2-3"` — are not rejected (see the
counterexample). -/
theorem unparsable_first_part_rejected (entry : List Char) (doc : List (List Char))
    (hne : pyStrip entry ≠ [])
    (hbad : pyInt (((pyStrip entry).splitOn '-').headD []) = none) :
    extractClicked entry doc = none := by
  apply extractClicked_invalid
  unfold parsePageRange
  rw [if_neg hne]
  by_cases hl : ((pyStrip entry).splitOn '-').length = 2
  · rw [if_pos hl, hbad]
  · rw [if_neg hl, hbad]

/-- Witness for unparsable_first_part_rejected: `"abc"` is rejected and
no extraction happens. -/
theorem unparsable_first_part_rejected_wit :
    extractClicked ("abc".toList) sampleDoc3 = none :=
  unparsable_first_part_rejected ("abc".toList) sampleDoc3 (by decide) (by decide)

/-- C5 (confirmed): the conversion job records exactly one outcome per
extracted page, in page order, and each page's outcome depends only on
that page's own synthesis result — so a synthesis failure on one page
never prevents any later page from being attempted, and failed pages
are recorded as failed. -/
theorem per_page_outcomes (extracted : List (Nat × List Char))
    (engine : EngineKind) (m : Nat)
    (synth : Nat → List Char → Except SynthErr Unit) :
    (convertJob extracted engine m synth).length = extracted.length ∧
    ∀ i : Nat, (convertJob extracted engine m synth)[i]? =
      (extracted[i]?).map (fun pt =>
        match synth pt.1 (pageFullText engine m pt.2) with
        | Except.ok _ => PageOutcome.exported pt.1
        | Except.error e => PageOutcome.failed pt.1 e) := by
  induction extracted with
  | nil => exact ⟨rfl, fun i => by cases i <;> rfl⟩
  | cons pt rest ih =>
    obtain ⟨p, text⟩ := pt
    obtain ⟨ih1, ih2⟩ := ih
    constructor
    · simp only [convertJob, List.length_cons, ih1]
    · intro i
      cases i with
      | zero =>
        simp only [convertJob, List.getElem?_cons_zero, Option.map_some']
      | succ i =>
        simp only [convertJob, List.getElem?_cons_succ]
        exact ih2 i

end PdfAudio
